import Mathlib

/-!
Verification of the factor backtesting pipeline of the quant repository
(AlphaProject: data_fetch.py, factors.py, backtest.py, main.py).

The pipeline is embedded shallowly: panel rows become a structure over
rationals, the polars expressions become list functions, grouped (over)
expressions become per-partition list computations scattered back by
position, and the fallible parts return Option / Except values.
-/

/-- One bar of the long panel: a row of the stocks parquet file with
columns date, code, open, high, low, close, volume, turnover.  Dates and
symbol codes are modelled as naturals, numeric fields as rationals
(the float columns of the store, in exact arithmetic). -/
structure Row where
  date : Nat
  code : Nat
  openp : ℚ
  high : ℚ
  low : ℚ
  close : ℚ
  volume : ℚ
  turnover : ℚ
deriving DecidableEq

/-- The (code, date) key that fetch_and_save_data deduplicates on. -/
def rkey (r : Row) : Nat × Nat := (r.code, r.date)

/-- Strict lexicographic order on (code, date) keys. -/
def keyLt (a b : Nat × Nat) : Prop := a.1 < b.1 ∨ (a.1 = b.1 ∧ a.2 < b.2)

instance : DecidableRel keyLt := fun a b => by unfold keyLt; infer_instance

theorem keyLt_trans {a b c : Nat × Nat} (h1 : keyLt a b) (h2 : keyLt b c) : keyLt a c := by
  rcases h1 with h1 | ⟨h1, h1d⟩ <;> rcases h2 with h2 | ⟨h2, h2d⟩ <;>
    unfold keyLt <;> omega

theorem keyLt_irrefl (a : Nat × Nat) : ¬ keyLt a a := by
  unfold keyLt; omega

theorem keyLt_trichotomy (a b : Nat × Nat) : keyLt a b ∨ a = b ∨ keyLt b a := by
  unfold keyLt
  rcases a with ⟨a1, a2⟩
  rcases b with ⟨b1, b2⟩
  simp only [Prod.mk.injEq]
  omega

theorem keyLt_asymm {a b : Nat × Nat} (h : keyLt a b) : ¬ keyLt b a := by
  intro h2
  exact keyLt_irrefl a (keyLt_trans h h2)

/-- The three-column sort key of the merge:
sort by code ascending, date ascending, close descending. -/
def le3 (a b : Row) : Prop := keyLt (rkey a) (rkey b) ∨ (rkey a = rkey b ∧ b.close ≤ a.close)

instance : DecidableRel le3 := fun a b => by unfold le3; infer_instance

instance : IsTotal Row le3 := by
  constructor
  intro a b
  rcases keyLt_trichotomy (rkey a) (rkey b) with h | h | h
  · exact Or.inl (Or.inl h)
  · rcases le_total b.close a.close with hc | hc
    · exact Or.inl (Or.inr ⟨h, hc⟩)
    · exact Or.inr (Or.inr ⟨h.symm, hc⟩)
  · exact Or.inr (Or.inl h)

instance : IsTrans Row le3 := by
  constructor
  intro a b c h1 h2
  rcases h1 with h1 | ⟨h1, h1c⟩ <;> rcases h2 with h2 | ⟨h2, h2c⟩
  · exact Or.inl (keyLt_trans h1 h2)
  · exact Or.inl (h2 ▸ h1)
  · exact Or.inl (h1 ▸ h2)
  · exact Or.inr ⟨h1.trans h2, h2c.trans h1c⟩

/-- The final (code, date) sort of the merge. -/
def lecd (a b : Row) : Prop := keyLt (rkey a) (rkey b) ∨ rkey a = rkey b

instance : DecidableRel lecd := fun a b => by unfold lecd; infer_instance

instance : IsTotal Row lecd := by
  constructor
  intro a b
  rcases keyLt_trichotomy (rkey a) (rkey b) with h | h | h
  · exact Or.inl (Or.inl h)
  · exact Or.inl (Or.inr h)
  · exact Or.inr (Or.inl h)

instance : IsTrans Row lecd := by
  constructor
  intro a b c h1 h2
  rcases h1 with h1 | h1 <;> rcases h2 with h2 | h2
  · exact Or.inl (keyLt_trans h1 h2)
  · exact Or.inl (h2 ▸ h1)
  · exact Or.inl (h1 ▸ h2)
  · exact Or.inr (h1.trans h2)

/-- Helper of uniqueFirst: drop every row whose (code, date) key was
already seen, scanning left to right. -/
def uniqueFirstAux (seen : List (Nat × Nat)) : List Row → List Row
  | [] => []
  | a :: l =>
    if rkey a ∈ seen then uniqueFirstAux seen l
    else a :: uniqueFirstAux (rkey a :: seen) l

/-- unique(subset is code and date, keep first): keep, for every
(code, date) key, the first row of the list carrying that key. -/
def uniqueFirst (l : List Row) : List Row := uniqueFirstAux [] l

/-- The sort by code asc, date asc, close desc of the merge.  polars does
not document stability of its sort; the embedding fixes the stable
refinement (insertion sort), under which, per (code, date) key, the first
kept row is the earliest row among those of maximal close. -/
def sort3 (l : List Row) : List Row := List.insertionSort le3 l

/-- The final sort by (code, date) of the merge. -/
def sortcd (l : List Row) : List Row := List.insertionSort lecd l

/-- The incremental merge of fetch_and_save_data: concat existing data with
the freshly fetched batch, sort by code/date ascending and close
descending, drop duplicate (code, date) keys keeping the first row, then
re-sort by (code, date). -/
def mergeIncremental (existing newRows : List Row) : List Row :=
  sortcd (uniqueFirst (sort3 (existing ++ newRows)))

/-- A bar already in the store. -/
def oldBar : Row :=
  { date := 5, code := 1, openp := 10, high := 11, low := 9, close := 10,
    volume := 100, turnover := 1 }

/-- A re-fetched bar for the same (code, date) key with a lower close and
different volume: by the documented policy it should supersede oldBar. -/
def newBar : Row :=
  { date := 5, code := 1, openp := 5, high := 6, low := 4, close := 5,
    volume := 200, turnover := 2 }

/-- C1: the merge does not keep the most recently merged row per
(code, date) key: merging newBar (the newer batch) over oldBar keeps
oldBar, because the dedup keeps the row with the greatest close, in
contradiction with the in-code comment that the last (newest) row wins.
The kept row therefore depends on the close field. -/
theorem mergeIncremental_keeps_max_close_not_newest :
    mergeIncremental [oldBar] [newBar] = [oldBar] ∧
      mergeIncremental [oldBar] [newBar] ≠ [newBar] ∧
      oldBar.close ≠ newBar.close := by
  decide

/-- The update mode of fetch_and_save_data. -/
inductive UpdateMode
  | full
  | incremental
deriving DecidableEq

/-- The incremental-read step of fetch_and_save_data (the try/except around
pl.read_parquet): in incremental mode, when the store file exists but
reading it fails, the except branch logs and sets update_mode to full with
no existing data retained; no error value reaches the caller. -/
def resolveIncrementalRead (mode : UpdateMode) (fileExists : Bool)
    (readResult : Except Nat (List Row)) : UpdateMode × Option (List Row) :=
  match mode with
  | UpdateMode.full => (UpdateMode.full, none)
  | UpdateMode.incremental =>
    if fileExists then
      match readResult with
      | Except.ok p => (UpdateMode.incremental, some p)
      | Except.error _ => (UpdateMode.full, none)
    else (UpdateMode.incremental, none)

/-- C4 counterexample: a corrupt store read (error 0) during an incremental
run silently switches the run to full-rebuild mode with no surfaced
error, refuting the claim that a StorageReadError is surfaced and that
full-rebuild happens only on explicit operator instruction. -/
theorem resolveIncrementalRead_corrupt_falls_back :
    resolveIncrementalRead UpdateMode.incremental true (Except.error 0) =
      (UpdateMode.full, none) := by
  rfl

/-- C4 amended: whenever the store exists but reading it fails during an
incremental run, fetch_and_save_data logs the failure, discards the
existing data and automatically degrades to a full update for that run;
no error propagates to the caller. -/
theorem resolveIncrementalRead_read_failure_auto_full :
    ∀ e : Nat, resolveIncrementalRead UpdateMode.incremental true (Except.error e) =
      (UpdateMode.full, none) := by
  intro e
  rfl

/-- C4 witness: the amended behaviour at the concrete error code 7. -/
theorem resolveIncrementalRead_read_failure_auto_full_witness :
    resolveIncrementalRead UpdateMode.incremental true (Except.error 7) =
      (UpdateMode.full, none) :=
  resolveIncrementalRead_read_failure_auto_full 7

/-- pct_change on a column: null for the first element, then
(v[k] - v[k-1]) / v[k-1]. -/
def pctChange (v : List ℚ) : List (Option ℚ) :=
  match v with
  | [] => []
  | a :: t => none :: ((a :: t).zip t).map (fun p => some ((p.2 - p.1) / p.1))

/-- shift(-1): every element takes the value of its successor, the last
becomes null. -/
def shiftNeg1 (l : List (Option ℚ)) : List (Option ℚ) :=
  match l with
  | [] => []
  | _ :: t => t ++ [none]

/-- Mean of a list of rationals (division by zero for the empty list,
which never occurs at use sites). -/
def meanQ (v : List ℚ) : ℚ := v.sum / (v.length : ℚ)

/-- rolling_mean(window_size w) with the polars default min_periods = w:
null until w observations exist, then the mean of the last w values. -/
def rollingMean (w : Nat) (v : List ℚ) : List (Option ℚ) :=
  (List.range v.length).map (fun k =>
    if k + 1 < w then none
    else some (((v.take (k + 1)).drop (k + 1 - w)).sum / (w : ℚ)))

/-- rolling_std(window_size w), polars default ddof 1: null until w
observations exist, then the square root of the sample variance of the
last w values.  The square root is kept abstract (sqrtf) because the code
computes it in floating point and no claim depends on its value, only on
its nullness; every theorem is parametric in sqrtf. -/
def rollingStd (sqrtf : ℚ → ℚ) (w : Nat) (v : List ℚ) : List (Option ℚ) :=
  (List.range v.length).map (fun k =>
    if k + 1 < w then none
    else
      some (sqrtf ((((v.take (k + 1)).drop (k + 1 - w)).map
        (fun x => (x - meanQ ((v.take (k + 1)).drop (k + 1 - w))) ^ 2)).sum /
          ((w : ℚ) - 1))))

/-- Semantics of expr.over("code"): apply the window expression to the
column restricted to the partition of rows sharing the code of row i
(in frame order) and read back the value at the position of row i inside
that partition. -/
def overCode (f : List ℚ → List (Option ℚ)) (col : Row → ℚ) (panel : List Row)
    (i : Nat) : Option ℚ :=
  match panel[i]? with
  | none => none
  | some r =>
    match (f ((panel.filter (fun s => s.code == r.code)).map col))[
        ((panel.take i).filter (fun s => s.code == r.code)).length]? with
    | some x => x
    | none => none

/-- A panel row extended with the derived columns of compute_factors_lazy.
The factor_log_vol column (natural log of volume) is omitted: it is never
consumed downstream and no claim mentions it. -/
structure FRow where
  r : Row
  nextRet : Option ℚ
  factorVolRatio : Option ℚ
  factorVolatility : Option ℚ
deriving DecidableEq

/-- The with_columns block of compute_factors_lazy:
next_ret is close.pct_change().shift(-1).over(code),
factor_vol_ratio is volume / volume.rolling_mean(5).over(code),
factor_volatility is close.rolling_std(20).over(code). -/
def computeFactors (sqrtf : ℚ → ℚ) (panel : List Row) : List FRow :=
  panel.enum.map (fun p =>
    let i := p.1
    let r := p.2
    { r := r,
      nextRet := overCode (fun v => shiftNeg1 (pctChange v)) (fun s => s.close) panel i,
      factorVolRatio :=
        match overCode (rollingMean 5) (fun s => s.volume) panel i with
        | some m => some (r.volume / m)
        | none => none,
      factorVolatility := overCode (rollingStd sqrtf 20) (fun s => s.close) panel i })

/-- The final filter of compute_factors_lazy:
filter(col("factor_vol_ratio").is_not_null()). -/
def computeFactorsFiltered (sqrtf : ℚ → ℚ) (panel : List Row) : List FRow :=
  (computeFactors sqrtf panel).filter (fun fr => fr.factorVolRatio.isSome)

/-- A five-observation single-symbol panel: long enough for the 5-day
volume ratio on its last row, far too short for the 20-day volatility. -/
def panelFive : List Row :=
  [ { date := 1, code := 1, openp := 1, high := 1, low := 1, close := 1,
      volume := 10, turnover := 1 },
    { date := 2, code := 1, openp := 2, high := 2, low := 2, close := 2,
      volume := 10, turnover := 1 },
    { date := 3, code := 1, openp := 3, high := 3, low := 3, close := 3,
      volume := 10, turnover := 1 },
    { date := 4, code := 1, openp := 4, high := 4, low := 4, close := 4,
      volume := 10, turnover := 1 },
    { date := 5, code := 1, openp := 5, high := 5, low := 5, close := 5,
      volume := 10, turnover := 1 } ]

/-- C5 counterexample: on panelFive every row has a null 20-day
volatility, so the claimed filter (drop rows whose slowest rolling factor
is null) would return the empty frame; the code instead keeps exactly the
fifth row, and that surviving row carries a null factor_volatility. -/
theorem factor_filter_survivor_with_null_volatility :
    (computeFactorsFiltered id panelFive).map (fun fr => fr.factorVolatility) = [none] ∧
      (computeFactorsFiltered id panelFive) ≠ [] := by
  decide

theorem take_succ_filter_length (panel : List Row) (i : Nat) (r : Row)
    (hp : panel[i]? = some r) (p : Row → Bool) (hpr : p r = true) :
    ((panel.take (i + 1)).filter p).length =
      ((panel.take i).filter p).length + 1 := by
  rw [List.take_succ, hp, List.filter_append]
  simp [hpr]

theorem take_filter_length_lt (panel : List Row) (i : Nat) (r : Row)
    (hp : panel[i]? = some r) (p : Row → Bool) (hpr : p r = true) :
    ((panel.take i).filter p).length < (panel.filter p).length := by
  have h1 : ((panel.take (i + 1)).filter p).length ≤ (panel.filter p).length :=
    List.Sublist.length_le (List.Sublist.filter p (List.take_sublist _ _))
  rw [take_succ_filter_length panel i r hp p hpr] at h1
  omega

/-- C5 amended: the final filter of the factor stage keeps exactly the
rows with at least five same-symbol observations up to and including the
row (the warm-up of the 5-day volume ratio, the factor the filter tests),
while the 20-day volatility is non-null only from the twentieth
observation on; rows with five to nineteen observations therefore survive
the filter carrying a null factor_volatility. -/
theorem factor_filter_is_five_day_warmup :
    ∀ (sqrtf : ℚ → ℚ) (panel : List Row) (i : Nat) (fr : FRow),
      (computeFactors sqrtf panel)[i]? = some fr →
      ((fr.factorVolRatio.isSome ↔
          5 ≤ ((panel.take (i + 1)).filter (fun s => s.code == fr.r.code)).length) ∧
        (fr.factorVolatility.isSome ↔
          20 ≤ ((panel.take (i + 1)).filter (fun s => s.code == fr.r.code)).length)) := by
  intro sqrtf panel i fr h
  rw [computeFactors, List.getElem?_map, List.getElem?_enum, Option.map_map] at h
  cases hp : panel[i]? with
  | none => rw [hp] at h; simp at h
  | some r =>
    rw [hp] at h
    simp only [Option.map_some', Option.some.injEq] at h
    have hrr : fr.r = r := by rw [← h]; rfl
    have hvr : fr.factorVolRatio =
        (match overCode (rollingMean 5) (fun s => s.volume) panel i with
          | some m => some (r.volume / m)
          | none => none) := by rw [← h]; rfl
    have hvol : fr.factorVolatility =
        overCode (rollingStd sqrtf 20) (fun s => s.close) panel i := by rw [← h]; rfl
    rw [hrr, hvr, hvol]
    have hpr : (fun s => s.code == r.code) r = true := by simp
    have hcnt := take_succ_filter_length panel i r hp (fun s => s.code == r.code) hpr
    have hlt := take_filter_length_lt panel i r hp (fun s => s.code == r.code) hpr
    rw [hcnt]
    set k := ((panel.take i).filter (fun s => s.code == r.code)).length with hk
    have hklen : k < ((panel.filter (fun s => s.code == r.code)).map
        (fun s : Row => s.volume)).length := by
      rw [List.length_map]; exact hlt
    have hklen2 : k < ((panel.filter (fun s => s.code == r.code)).map
        (fun s : Row => s.close)).length := by
      rw [List.length_map]; exact hlt
    constructor
    · simp only [overCode, hp, rollingMean, List.getElem?_map]
      rw [List.getElem?_range hklen]
      simp only [Option.map_some']
      by_cases h5 : k + 1 < 5
      · rw [if_pos h5]
        simp only [Option.isSome_none, Bool.false_eq_true, false_iff]
        omega
      · rw [if_neg h5]
        simp only [Option.isSome_some, true_iff]
        omega
    · simp only [overCode, hp, rollingStd, List.getElem?_map]
      rw [List.getElem?_range hklen2]
      simp only [Option.map_some']
      by_cases h20 : k + 1 < 20
      · rw [if_pos h20]
        simp only [Option.isSome_none, Bool.false_eq_true, false_iff]
        omega
      · rw [if_neg h20]
        simp only [Option.isSome_some, true_iff]
        omega

/-- The fifth factor row of panelFive: last observation, five-observation
volume window complete (ratio 10 / 10 = 1), volatility still null. -/
def frFifth : FRow :=
  { r := { date := 5, code := 1, openp := 5, high := 5, low := 5, close := 5,
           volume := 10, turnover := 1 },
    nextRet := none, factorVolRatio := some 1, factorVolatility := none }

/-- C5 witness: the amended characterization applied to the fifth row of
panelFive, whose survival (5-day window full) and null volatility (20-day
window not full) follow from it. -/
theorem factor_filter_is_five_day_warmup_witness :
    (frFifth.factorVolRatio.isSome ↔
        5 ≤ ((panelFive.take (4 + 1)).filter (fun s => s.code == frFifth.r.code)).length) ∧
      (frFifth.factorVolatility.isSome ↔
        20 ≤ ((panelFive.take (4 + 1)).filter (fun s => s.code == frFifth.r.code)).length) :=
  factor_filter_is_five_day_warmup id panelFive 4 frFifth (by
    simp [computeFactors, overCode, panelFive, pctChange, shiftNeg1, rollingMean,
      rollingStd, meanQ, frFifth, List.enum, List.enumFrom, List.range_succ]
    norm_num)

/-- A factor row extended with the outputs of process_cross_section. -/
structure SRow where
  fr : FRow
  zVolRatio : Option ℚ
  zTurnover : Option ℚ
  score : Option ℚ
deriving DecidableEq

/-- The non-null values of a column over the date-d cohort of the factor
frame (polars aggregations over a partition skip null entries). -/
def cohortVals (rows : List FRow) (d : Nat) (col : FRow → Option ℚ) : List ℚ :=
  ((rows.filter (fun s => s.r.date == d)).map col).reduceOption

/-- Sample standard deviation of a value list (ddof 1, the polars default
for std over a window): null when fewer than two values exist, else the
square root of the sample variance, with the square root abstract as in
rollingStd. -/
def stdDdof1 (sqrtf : ℚ → ℚ) (v : List ℚ) : Option ℚ :=
  if v.length < 2 then none
  else some (sqrtf ((v.map (fun x => (x - meanQ v) ^ 2)).sum / ((v.length : ℚ) - 1)))

/-- The standardize expression of process_cross_section:
(x - mean over date) / (std over date + 1e-6).  Mean and std are over the
non-null cohort values; a null input or a null std makes z null. -/
def standardizeVal (sqrtf : ℚ → ℚ) (rows : List FRow) (d : Nat)
    (col : FRow → Option ℚ) (x : Option ℚ) : Option ℚ :=
  match x, stdDdof1 sqrtf (cohortVals rows d col) with
  | some xv, some s => some ((xv - meanQ (cohortVals rows d col)) / (s + 1 / 1000000))
  | _, _ => none

/-- process_cross_section: add z_vol_ratio and z_turnover by per-date
standardization of the raw factor columns and score as their 0.5/0.5
combination.  The winsorize helper defined in the same function is never
applied to any column, so no clipping happens here. -/
def processCrossSection (sqrtf : ℚ → ℚ) (rows : List FRow) : List SRow :=
  rows.map (fun fr =>
    let zv := standardizeVal sqrtf rows fr.r.date (fun s => s.factorVolRatio) fr.factorVolRatio
    let zt := standardizeVal sqrtf rows fr.r.date (fun s => some s.r.turnover) (some fr.r.turnover)
    { fr := fr, zVolRatio := zv, zTurnover := zt,
      score :=
        match zv, zt with
        | some a, some b => some (a * (1 / 2) + b * (1 / 2))
        | _, _ => none })

/-- A single factor row forming a date cohort of size one. -/
def soloFRow : FRow :=
  { r := { date := 9, code := 3, openp := 7, high := 7, low := 7, close := 7,
           volume := 40, turnover := 3 },
    nextRet := none, factorVolRatio := some 2, factorVolatility := none }

/-- C6 counterexample: in a date cohort of size one both z-scores and the
score come out null, not a finite value near zero: the sample std (ddof 1)
of one observation is null in polars, and the null propagates through the
epsilon guard and the division. -/
theorem single_cohort_z_is_null :
    (processCrossSection id [soloFRow]).map
        (fun s => (s.zVolRatio, s.zTurnover, s.score)) = [(none, none, none)] := by
  simp [processCrossSection, standardizeVal, stdDdof1, cohortVals, soloFRow]

theorem standardizeVal_of_std_none (sqrtf : ℚ → ℚ) (rows : List FRow) (d : Nat)
    (col : FRow → Option ℚ) (x : Option ℚ)
    (h : stdDdof1 sqrtf (cohortVals rows d col) = none) :
    standardizeVal sqrtf rows d col x = none := by
  show (match x, stdDdof1 sqrtf (cohortVals rows d col) with
    | some xv, some s => some ((xv - meanQ (cohortVals rows d col)) / (s + 1 / 1000000))
    | _, _ => none) = none
  rw [h]
  cases x <;> simp

/-- C6 amended: for every date cohort of size one, the z-score of each
configured factor and the composite score of its row are null (no
infinity and no NaN arise, but no epsilon-guarded zero either: the ddof-1
std of a singleton cohort is null and null propagates). -/
theorem single_cohort_z_null_general :
    ∀ (sqrtf : ℚ → ℚ) (rows : List FRow) (i : Nat) (sr : SRow),
      (processCrossSection sqrtf rows)[i]? = some sr →
      (rows.filter (fun s => s.r.date == sr.fr.r.date)).length = 1 →
      sr.zVolRatio = none ∧ sr.zTurnover = none ∧ sr.score = none := by
  intro sqrtf rows i sr h hcoh
  rw [processCrossSection, List.getElem?_map] at h
  cases hp : rows[i]? with
  | none => rw [hp] at h; simp at h
  | some fr =>
    rw [hp] at h
    simp only [Option.map_some', Option.some.injEq] at h
    have hfr : sr.fr = fr := by rw [← h]
    rw [hfr] at hcoh
    have hlen : ∀ col : FRow → Option ℚ,
        (cohortVals rows fr.r.date col).length < 2 := by
      intro col
      have h1 : (cohortVals rows fr.r.date col).length ≤
          ((rows.filter (fun s => s.r.date == fr.r.date)).map col).length :=
        List.reduceOption_length_le _
      rw [List.length_map, hcoh] at h1
      omega
    have hstd : ∀ col : FRow → Option ℚ,
        stdDdof1 sqrtf (cohortVals rows fr.r.date col) = none := by
      intro col
      rw [stdDdof1, if_pos (hlen col)]
    have hz1 : standardizeVal sqrtf rows fr.r.date (fun s => s.factorVolRatio)
        fr.factorVolRatio = none :=
      standardizeVal_of_std_none sqrtf rows fr.r.date _ _ (hstd _)
    have hz2 : standardizeVal sqrtf rows fr.r.date (fun s => some s.r.turnover)
        (some fr.r.turnover) = none :=
      standardizeVal_of_std_none sqrtf rows fr.r.date _ _ (hstd _)
    refine ⟨?_, ?_, ?_⟩
    · rw [← h]
      show standardizeVal sqrtf rows fr.r.date (fun s => s.factorVolRatio) fr.factorVolRatio = none
      exact hz1
    · rw [← h]
      show standardizeVal sqrtf rows fr.r.date (fun s => some s.r.turnover) (some fr.r.turnover) = none
      exact hz2
    · rw [← h]
      show (match standardizeVal sqrtf rows fr.r.date (fun s => s.factorVolRatio) fr.factorVolRatio,
          standardizeVal sqrtf rows fr.r.date (fun s => some s.r.turnover) (some fr.r.turnover) with
        | some a, some b => some (a * (1 / 2) + b * (1 / 2))
        | _, _ => none) = none
      rw [hz1, hz2]

/-- C6 witness: the amended statement applied to the singleton cohort of
soloFRow. -/
theorem single_cohort_z_null_general_witness :
    ∃ sr : SRow, (processCrossSection id [soloFRow])[0]? = some sr ∧
      sr.zVolRatio = none ∧ sr.zTurnover = none ∧ sr.score = none := by
  cases hp : (processCrossSection id [soloFRow])[0]? with
  | none =>
    have : (processCrossSection id [soloFRow]).length = 1 := by
      rw [processCrossSection, List.length_map]
      rfl
    rw [List.getElem?_eq_none_iff] at hp
    omega
  | some sr =>
    refine ⟨sr, rfl, single_cohort_z_null_general id [soloFRow] 0 sr hp ?_⟩
    have hfr : sr.fr = soloFRow := by
      rw [processCrossSection, List.getElem?_map] at hp
      simp only [List.getElem?_cons_zero, Option.map_some', Option.some.injEq] at hp
      rw [← hp]
    rw [hfr]
    rfl

/-- Date of row i of the scored frame (0 when out of range). -/
def sDate (rows : List SRow) (i : Nat) : Nat :=
  match rows[i]? with
  | some r => r.fr.r.date
  | none => 0

/-- Score of row i of the scored frame (null when out of range). -/
def sScore (rows : List SRow) (i : Nat) : Option ℚ :=
  match rows[i]? with
  | some r => r.score
  | none => none

/-- next_ret of row i of the scored frame (null when out of range). -/
def sNextRet (rows : List SRow) (i : Nat) : Option ℚ :=
  match rows[i]? with
  | some r => r.fr.nextRet
  | none => none

/-- rank(method ordinal, descending).over(date) on the score column: a
null score gets a null rank; a non-null score x at position i ranks one
plus the number of same-date rows whose score is non-null and either
strictly greater than x or equal to x at an earlier position (ordinal
rank: descending score, ties broken by first-seen frame order). -/
def rankAt (rows : List SRow) (i : Nat) : Option Nat :=
  match rows[i]? with
  | none => none
  | some r =>
    match r.score with
    | none => none
    | some x =>
      some (1 + (List.range rows.length).countP (fun j =>
        sDate rows j == r.fr.r.date &&
          (match sScore rows j with
           | some y => decide (x < y ∨ (y = x ∧ j < i))
           | none => false)))

/-- filter(rank less or equal top_n): a null rank compares to null, which
the filter drops. -/
def isSelected (topN : Nat) (rows : List SRow) (i : Nat) : Bool :=
  match rankAt rows i with
  | some rk => rk ≤ topN
  | none => false

/-- The frame positions surviving the rank filter, in frame order. -/
def selectedIdx (topN : Nat) (rows : List SRow) : List Nat :=
  (List.range rows.length).filter (isSelected topN rows)

/-- The selected positions carrying date d, in frame order. -/
def selAt (topN : Nat) (rows : List SRow) (d : Nat) : List Nat :=
  (selectedIdx topN rows).filter (fun i => sDate rows i == d)

/-- The polars mean aggregation: null entries are skipped (the sum of the
non-null values is divided by their count); an all-null group is null. -/
def polarsMean (l : List (Option ℚ)) : Option ℚ :=
  if l.reduceOption.length = 0 then none
  else some (l.reduceOption.sum / (l.reduceOption.length : ℚ))

/-- The distinct dates of the selected rows, ascending: group_by(date)
followed by sort(date). -/
def outDates (topN : Nat) (rows : List SRow) : List Nat :=
  List.insertionSort (fun a b => a ≤ b) (((selectedIdx topN rows).map (sDate rows)).dedup)

/-- The aggregation of run_full_pipeline: per selected date, strategy_ret
is the polars mean of next_ret over the selected rows and stock_count is
count(code), the number of selected rows (code is never null). -/
def backtestRecords (topN : Nat) (rows : List SRow) : List (Nat × Option ℚ × Nat) :=
  (outDates topN rows).map (fun d =>
    (d, polarsMean ((selAt topN rows d).map (sNextRet rows)), (selAt topN rows d).length))

/-- fill_null(0) on the aggregated frame: a null strategy_ret becomes 0
only after the aggregation. -/
def backtestFilled (topN : Nat) (rows : List SRow) : List (Nat × ℚ × Nat) :=
  (backtestRecords topN rows).map (fun t => (t.1, t.2.1.getD 0, t.2.2))

/-- A scored row with the best score of its date and a realized
next-period return of 1/10. -/
def srowA : SRow :=
  { fr := { r := { date := 1, code := 1, openp := 1, high := 1, low := 1, close := 1,
                   volume := 10, turnover := 1 },
            nextRet := some (1 / 10), factorVolRatio := some 1, factorVolatility := some 1 },
    zVolRatio := some 1, zTurnover := some 1, score := some 2 }

/-- A scored row of the same date with the second-best score and a null
next-period return. -/
def srowB : SRow :=
  { fr := { r := { date := 1, code := 2, openp := 1, high := 1, low := 1, close := 1,
                   volume := 10, turnover := 1 },
            nextRet := none, factorVolRatio := some 1, factorVolatility := some 1 },
    zVolRatio := some 1, zTurnover := some 1, score := some 1 }

/-- C2 counterexample: with top_n = 2 both rows of the date-1 cohort are
selected (k = 2) but one next_ret is null: the code divides the non-null
sum 1/10 by the non-null count 1, giving strategy_ret 1/10, while the
claimed null-as-zero-before-averaging policy would give (1/10 + 0) / 2 =
1/20; stock_count is 2. -/
theorem backtest_mean_skips_null_next_ret :
    backtestFilled 2 [srowA, srowB] = [(1, 1 / 10, 2)] ∧
      (1 / 10 : ℚ) ≠ (1 / 10 + 0) / 2 := by
  constructor
  · norm_num [backtestFilled, backtestRecords, outDates, selAt, selectedIdx, isSelected,
      rankAt, sDate, sScore, sNextRet, polarsMean, srowA, srowB, List.range_succ]
  · norm_num

theorem find?_map_key {β : Type} (f : Nat → Nat × β) (hf : ∀ x, (f x).1 = x) (d : Nat) :
    ∀ dates : List Nat, dates.Nodup → d ∈ dates →
      ((dates.map f).find? (fun t => t.1 == d)) = some (f d) := by
  intro dates
  induction dates with
  | nil => intro _ hd; simp at hd
  | cons a t ih =>
    intro hnd hd
    rw [List.map_cons, List.find?_cons]
    by_cases ha : a = d
    · subst ha
      rw [hf a]
      simp
    · have hft : ((f a).1 == d) = false := by
        rw [hf a]
        simp [ha]
      rw [hft]
      have hdt : d ∈ t := by
        rcases List.mem_cons.mp hd with h | h
        · exact absurd h.symm ha
        · exact h
      exact ih (List.Nodup.of_cons hnd) hdt

theorem outDates_nodup (topN : Nat) (rows : List SRow) : (outDates topN rows).Nodup := by
  rw [outDates]
  exact (List.Perm.nodup_iff (List.perm_insertionSort _ _)).mpr (List.nodup_dedup _)

/-- C2 amended: for every selected date d, the emitted record carries
strategy_ret equal to the sum of the non-null next_ret values over the
selected rows divided by the count of the non-null values (0 after
fill_null when every selected next_ret is null), not divided by the
selection size, and stock_count equal to the number of selected rows. -/
theorem backtest_per_date_aggregation :
    ∀ (topN : Nat) (rows : List SRow) (d : Nat), d ∈ outDates topN rows →
      (backtestFilled topN rows).find? (fun t => t.1 == d) =
        some (d,
          (if ((selAt topN rows d).map (sNextRet rows)).reduceOption.length = 0 then 0
           else ((selAt topN rows d).map (sNextRet rows)).reduceOption.sum /
             (((selAt topN rows d).map (sNextRet rows)).reduceOption.length : ℚ)),
          (selAt topN rows d).length) := by
  intro topN rows d hd
  rw [backtestFilled, backtestRecords, List.map_map]
  have hres := find?_map_key
    ((fun t : Nat × Option ℚ × Nat => (t.1, t.2.1.getD 0, t.2.2)) ∘
      (fun d => (d, polarsMean ((selAt topN rows d).map (sNextRet rows)),
        (selAt topN rows d).length)))
    (fun x => rfl) d (outDates topN rows) (outDates_nodup topN rows) hd
  rw [hres]
  show some (d, (polarsMean ((selAt topN rows d).map (sNextRet rows))).getD 0, _) = _
  rw [polarsMean]
  split
  · simp
  · simp

/-- C2 witness: the amended aggregation applied at date 1 of the concrete
two-row cohort, one of whose selected rows has a null next_ret. -/
theorem backtest_per_date_aggregation_witness :
    (backtestFilled 2 [srowA, srowB]).find? (fun t => t.1 == 1) =
      some (1,
        (if ((selAt 2 [srowA, srowB] 1).map (sNextRet [srowA, srowB])).reduceOption.length = 0
         then 0
         else ((selAt 2 [srowA, srowB] 1).map (sNextRet [srowA, srowB])).reduceOption.sum /
           (((selAt 2 [srowA, srowB] 1).map (sNextRet [srowA, srowB])).reduceOption.length : ℚ)),
        (selAt 2 [srowA, srowB] 1).length) :=
  backtest_per_date_aggregation 2 [srowA, srowB] 1 (by
    norm_num [outDates, selectedIdx, isSelected, rankAt, sDate, sScore, srowA, srowB,
      List.range_succ])

/-- The running product of (1 + strategy_ret) with starting capital acc. -/
def cumNavAux (acc : ℚ) : List ℚ → List ℚ
  | [] => []
  | r :: t => (acc * (1 + r)) :: cumNavAux (acc * (1 + r)) t

/-- cum_nav: the cumulative product of (1 + strategy_ret). -/
def cumNav (rets : List ℚ) : List ℚ := cumNavAux 1 rets

/-- total_return of run_full_pipeline: cum_nav.iloc[-1] - 1.  pandas iloc
on an empty frame raises IndexError; the read of the last element is
therefore modelled as an Option, none meaning the raised exception. -/
def totalReturnStat (rets : List ℚ) : Option ℚ :=
  match (cumNav rets).getLast? with
  | some x => some (x - 1)
  | none => none

/-- C3: an empty scored frame produces an empty per-date record sequence,
but the summary-statistics block then fails instead of reporting zeros:
total_return indexes the last element of the empty nav series
(cum_nav.iloc[-1]), which raises IndexError (none), so the claim that
every summary statistic is 0 and no exception is raised fails on the
code, although its empty-record half holds. -/
theorem backtest_empty_input_raises :
    ∀ topN : Nat, backtestFilled topN [] = [] ∧
      totalReturnStat ((backtestFilled topN []).map (fun t => t.2.1)) = none := by
  intro topN
  exact ⟨rfl, rfl⟩

/-- C3 witness: the empty-input behaviour at the default top_n of 30. -/
theorem backtest_empty_input_raises_witness :
    backtestFilled 30 [] = [] ∧
      totalReturnStat ((backtestFilled 30 []).map (fun t => t.2.1)) = none :=
  backtest_empty_input_raises 30

theorem countP_range_eq_card_filter (n : ℕ) (p : ℕ → Bool) :
    (List.range n).countP p = ((Finset.range n).filter (fun j => p j = true)).card := by
  induction n with
  | zero => rfl
  | succ m ih =>
    rw [List.range_succ, List.countP_append, Finset.range_succ, Finset.filter_insert]
    by_cases hp : p m = true
    · rw [if_pos hp, Finset.card_insert_of_not_mem (by simp)]
      simp [List.countP_cons, hp, ih]
    · rw [if_neg hp]
      simp [List.countP_cons, hp, ih]

/-- The frame positions of the date-d cohort carrying a non-null score. -/
def cohortSet (rows : List SRow) (d : Nat) : Finset Nat :=
  (Finset.range rows.length).filter (fun i => sDate rows i = d ∧ sScore rows i ≠ none)

/-- Position j ranks strictly before position i under descending ordinal
ranking: a strictly larger score, or an equal score at an earlier frame
position. -/
def precedes (rows : List SRow) (j i : Nat) : Prop :=
  (sScore rows i).getD 0 < (sScore rows j).getD 0 ∨
    ((sScore rows j).getD 0 = (sScore rows i).getD 0 ∧ j < i)

instance (rows : List SRow) (j i : Nat) : Decidable (precedes rows j i) := by
  unfold precedes; infer_instance

/-- The ordinal rank of position i inside its date cohort: one plus the
number of cohort positions ranking strictly before it. -/
def rnkVal (rows : List SRow) (d : Nat) (i : Nat) : Nat :=
  1 + ((cohortSet rows d).filter (fun j => precedes rows j i)).card

theorem precedes_irrefl (rows : List SRow) (i : Nat) : ¬ precedes rows i i := by
  rintro (h | ⟨-, h⟩)
  · exact lt_irrefl _ h
  · exact Nat.lt_irrefl i h

theorem precedes_trans (rows : List SRow) {a b c : Nat}
    (h1 : precedes rows a b) (h2 : precedes rows b c) : precedes rows a c := by
  rcases h1 with h1 | ⟨h1e, h1p⟩ <;> rcases h2 with h2 | ⟨h2e, h2p⟩
  · exact Or.inl (h2.trans h1)
  · exact Or.inl (by rw [← h2e]; exact h1)
  · exact Or.inl (by rw [h1e]; exact h2)
  · exact Or.inr ⟨h1e.trans h2e, h1p.trans h2p⟩

theorem precedes_total (rows : List SRow) {i j : Nat} (hij : i ≠ j) :
    precedes rows i j ∨ precedes rows j i := by
  rcases lt_trichotomy ((sScore rows i).getD 0) ((sScore rows j).getD 0) with h | h | h
  · exact Or.inr (Or.inl h)
  · rcases Nat.lt_or_ge i j with hp | hp
    · exact Or.inl (Or.inr ⟨h, hp⟩)
    · exact Or.inr (Or.inr ⟨h.symm, Nat.lt_of_le_of_ne hp (Ne.symm hij)⟩)
  · exact Or.inl (Or.inl h)

theorem rnkVal_mono (rows : List SRow) (d : Nat) {i j : Nat}
    (hi : i ∈ cohortSet rows d) (hj : j ∈ cohortSet rows d)
    (hp : precedes rows i j) : rnkVal rows d i < rnkVal rows d j := by
  unfold rnkVal
  have hsub : (cohortSet rows d).filter (fun t => precedes rows t i) ⊆
      (cohortSet rows d).filter (fun t => precedes rows t j) := by
    intro t ht
    rw [Finset.mem_filter] at ht ⊢
    exact ⟨ht.1, precedes_trans rows ht.2 hp⟩
  have hss : (cohortSet rows d).filter (fun t => precedes rows t i) ⊂
      (cohortSet rows d).filter (fun t => precedes rows t j) := by
    rw [Finset.ssubset_iff_of_subset hsub]
    refine ⟨i, ?_, ?_⟩
    · rw [Finset.mem_filter]; exact ⟨hi, hp⟩
    · rw [Finset.mem_filter]
      rintro ⟨-, hc⟩
      exact precedes_irrefl rows i hc
  have := Finset.card_lt_card hss
  omega

theorem rnkVal_le_card (rows : List SRow) (d : Nat) {i : Nat}
    (hi : i ∈ cohortSet rows d) : rnkVal rows d i ≤ (cohortSet rows d).card := by
  unfold rnkVal
  have hsub : (cohortSet rows d).filter (fun t => precedes rows t i) ⊆
      (cohortSet rows d).erase i := by
    intro t ht
    rw [Finset.mem_filter] at ht
    rw [Finset.mem_erase]
    refine ⟨?_, ht.1⟩
    intro he
    exact precedes_irrefl rows i (he ▸ ht.2)
  have h1 := Finset.card_le_card hsub
  rw [Finset.card_erase_of_mem hi] at h1
  have h2 : 0 < (cohortSet rows d).card := Finset.card_pos.mpr ⟨i, hi⟩
  omega

theorem rnkVal_injOn (rows : List SRow) (d : Nat) :
    Set.InjOn (rnkVal rows d) (cohortSet rows d) := by
  intro i hi j hj heq
  by_contra hij
  rcases precedes_total rows hij with h | h
  · exact absurd heq (Nat.ne_of_lt (rnkVal_mono rows d (Finset.mem_coe.mp hi) (Finset.mem_coe.mp hj) h))
  · exact absurd heq (Nat.ne_of_gt (rnkVal_mono rows d (Finset.mem_coe.mp hj) (Finset.mem_coe.mp hi) h))

theorem rankAt_eq_rnkVal (rows : List SRow) (d : Nat) {i : Nat}
    (hi : i ∈ cohortSet rows d) : rankAt rows i = some (rnkVal rows d i) := by
  rw [cohortSet, Finset.mem_filter, Finset.mem_range] at hi
  have hlen := hi.1
  have hdate := hi.2.1
  have hscore := hi.2.2
  cases hr : rows[i]? with
  | none =>
    rw [List.getElem?_eq_none_iff] at hr
    omega
  | some r =>
    have hsd : sDate rows i = r.fr.r.date := by rw [sDate, hr]
    have hss : sScore rows i = r.score := by rw [sScore, hr]
    cases hsc : r.score with
    | none =>
      rw [hss, hsc] at hscore
      exact absurd rfl hscore
    | some x =>
      simp only [rankAt, hr, hsc, rnkVal]
      congr 1
      congr 1
      rw [countP_range_eq_card_filter]
      rw [cohortSet, Finset.filter_filter]
      apply congrArg Finset.card
      apply Finset.filter_congr
      intro j hj
      cases hsj : sScore rows j with
      | none => simp [hsj, precedes]
      | some y =>
        have hrd : r.fr.r.date = d := by rw [← hsd]; exact hdate
        simp only [hsj, hrd, precedes, hss, hsc, Option.getD_some, Bool.and_eq_true,
          beq_iff_eq, decide_eq_true_eq, ne_eq, reduceCtorEq, not_false_eq_true, and_true]

/-- C9: within every date cohort, over the k rows carrying a non-null
score, the ordinal descending rank is exactly a permutation of 1..k (the
rank values are injective on the cohort and their image is the integer
interval 1..k), ordered by descending score with ties broken by the
deterministic first-seen frame order (an earlier equal-scored row ranks
strictly lower), independent of score magnitudes beyond their order. -/
theorem rank_ordinal_is_permutation :
    ∀ (rows : List SRow) (d : Nat),
      (∀ i ∈ cohortSet rows d, rankAt rows i = some (rnkVal rows d i)) ∧
      Set.InjOn (rnkVal rows d) (cohortSet rows d) ∧
      Finset.image (rnkVal rows d) (cohortSet rows d) =
        Finset.Icc 1 (cohortSet rows d).card ∧
      (∀ i ∈ cohortSet rows d, ∀ j ∈ cohortSet rows d, precedes rows i j →
        rnkVal rows d i < rnkVal rows d j) := by
  intro rows d
  refine ⟨fun i hi => rankAt_eq_rnkVal rows d hi, rnkVal_injOn rows d, ?_,
    fun i hi j hj hp => rnkVal_mono rows d hi hj hp⟩
  apply Finset.eq_of_subset_of_card_le
  · intro x hx
    rw [Finset.mem_image] at hx
    obtain ⟨i, hi, rfl⟩ := hx
    rw [Finset.mem_Icc]
    constructor
    · rw [rnkVal]
      omega
    · exact rnkVal_le_card rows d hi
  · rw [Finset.card_image_of_injOn (rnkVal_injOn rows d), Nat.card_Icc]
    omega

/-- C9 witness: in the two-row date-1 cohort the first row (score 2)
receives rank value one via the permutation theorem. -/
theorem rank_ordinal_is_permutation_witness :
    rankAt [srowA, srowB] 0 = some (rnkVal [srowA, srowB] 1 0) :=
  (rank_ordinal_is_permutation [srowA, srowB] 1).1 0 (by decide)

theorem filter_getElem?_zero {α : Type} (p : α → Bool) :
    ∀ t : List α, (t.filter p)[0]? = t.find? p := by
  intro t
  induction t with
  | nil => rfl
  | cons a l ih =>
    by_cases ha : p a = true
    · rw [List.filter_cons_of_pos ha, List.find?_cons_of_pos _ ha]
      simp
    · rw [List.filter_cons_of_neg (by simpa using ha), List.find?_cons_of_neg _ (by simpa using ha)]
      exact ih

theorem filter_getElem?_len {α : Type} (p : α → Bool) :
    ∀ (l : List α) (i : Nat) (a : α), l[i]? = some a → p a = true →
      (l.filter p)[((l.take i).filter p).length]? = some a := by
  intro l
  induction l with
  | nil => intro i a h _; simp at h
  | cons b t ih =>
    intro i a h hp
    cases i with
    | zero =>
      rw [List.getElem?_cons_zero] at h
      injection h with h
      subst h
      rw [List.take_zero]
      rw [List.filter_cons_of_pos hp]
      simp
    | succ j =>
      rw [List.getElem?_cons_succ] at h
      rw [List.take_succ_cons]
      by_cases hb : p b = true
      · rw [List.filter_cons_of_pos hb, List.filter_cons_of_pos hb,
          List.length_cons, List.getElem?_cons_succ]
        exact ih j a h hp
      · rw [List.filter_cons_of_neg (by simpa using hb),
          List.filter_cons_of_neg (by simpa using hb)]
        exact ih j a h hp

theorem filter_getElem?_len_succ {α : Type} (p : α → Bool) :
    ∀ (l : List α) (i : Nat) (a : α), l[i]? = some a → p a = true →
      (l.filter p)[((l.take i).filter p).length + 1]? = (l.drop (i + 1)).find? p := by
  intro l
  induction l with
  | nil => intro i a h _; simp at h
  | cons b t ih =>
    intro i a h hp
    cases i with
    | zero =>
      rw [List.getElem?_cons_zero] at h
      injection h with h
      subst h
      rw [List.take_zero]
      rw [List.filter_cons_of_pos hp]
      simp only [List.filter_nil, List.length_nil, List.drop_succ_cons, List.drop_zero]
      show (b :: t.filter p)[0 + 1]? = _
      rw [List.getElem?_cons_succ]
      exact filter_getElem?_zero p t
    | succ j =>
      rw [List.getElem?_cons_succ] at h
      rw [List.take_succ_cons]
      rw [List.drop_succ_cons]
      by_cases hb : p b = true
      · rw [List.filter_cons_of_pos hb, List.filter_cons_of_pos hb,
          List.length_cons]
        show (b :: t.filter p)[(((t.take j).filter p).length + 1) + 1]? = _
        rw [List.getElem?_cons_succ]
        exact ih j a h hp
      · rw [List.filter_cons_of_neg (by simpa using hb),
          List.filter_cons_of_neg (by simpa using hb)]
        exact ih j a h hp

theorem find?_index {α : Type} (p : α → Bool) :
    ∀ (l : List α) (s : α), l.find? p = some s →
      ∃ q, l[q]? = some s ∧ ∀ m : Nat, m < q → ∀ b : α, l[m]? = some b → p b = false := by
  intro l
  induction l with
  | nil => intro s h; simp at h
  | cons a t ih =>
    intro s h
    by_cases ha : p a = true
    · rw [List.find?_cons_of_pos _ ha] at h
      injection h with h
      subst h
      refine ⟨0, by simp, ?_⟩
      intro m hm
      exact absurd hm (Nat.not_lt_zero m)
    · rw [List.find?_cons_of_neg _ (by simpa using ha)] at h
      obtain ⟨q, hq, hmin⟩ := ih s h
      refine ⟨q + 1, by rw [List.getElem?_cons_succ]; exact hq, ?_⟩
      intro m hm b hb
      cases m with
      | zero =>
        rw [List.getElem?_cons_zero] at hb
        injection hb with hb
        subst hb
        simpa using ha
      | succ m2 =>
        rw [List.getElem?_cons_succ] at hb
        exact hmin m2 (by omega) b hb

theorem shiftNeg1_pctChange_mid (v : List ℚ) (k : Nat) (a b : ℚ)
    (ha : v[k]? = some a) (hb : v[k + 1]? = some b) :
    (shiftNeg1 (pctChange v))[k]? = some (some ((b - a) / a)) := by
  cases v with
  | nil => simp at ha
  | cons c t =>
    show ((((c :: t).zip t).map (fun p => some ((p.2 - p.1) / p.1))) ++ [none])[k]? = _
    rw [List.getElem?_cons_succ] at hb
    have hk : k < t.length := by
      obtain ⟨hlt, -⟩ := List.getElem?_eq_some.mp hb
      exact hlt
    have hklen : k < (((c :: t).zip t).map (fun p => some ((p.2 - p.1) / p.1))).length := by
      rw [List.length_map, List.length_zip, List.length_cons]
      omega
    rw [List.getElem?_append_left hklen, List.getElem?_map]
    have hzip : ((c :: t).zip t)[k]? = some (a, b) := by
      rw [List.getElem?_zip_eq_some]
      exact ⟨ha, hb⟩
    rw [hzip]
    rfl

theorem shiftNeg1_pctChange_last (v : List ℚ) (k : Nat)
    (hk : v[k]? ≠ none) (hk1 : v[k + 1]? = none) :
    (shiftNeg1 (pctChange v))[k]? = some none := by
  cases v with
  | nil => simp at hk
  | cons c t =>
    show ((((c :: t).zip t).map (fun p => some ((p.2 - p.1) / p.1))) ++ [none])[k]? = _
    have h1 : k < t.length + 1 := by
      by_contra hcon
      push_neg at hcon
      exact hk (List.getElem?_eq_none_iff.mpr (by rw [List.length_cons]; omega))
    have h2 : t.length ≤ k := by
      rw [List.getElem?_eq_none_iff, List.length_cons] at hk1
      omega
    have hkeq : k = t.length := by omega
    have hlen : (((c :: t).zip t).map (fun p => some ((p.2 - p.1) / p.1))).length = t.length := by
      rw [List.length_map, List.length_zip, List.length_cons]
      omega
    rw [List.getElem?_append_right (by omega)]
    rw [hlen, hkeq]
    simp

/-- C7: next_ret of a factor row equals the one-step simple return from
its close to the close of the chronologically next row of the same
symbol when one exists, and is null otherwise (in particular at each
symbol's last row); the value is determined entirely by the nearest
same-symbol successor, so it never reads a different symbol's close even
when symbols' dates interleave.  The hypothesis is the store invariant:
within a symbol, dates strictly increase in frame order. -/
theorem next_ret_one_step_within_symbol :
    ∀ (sqrtf : ℚ → ℚ) (panel : List Row) (i : Nat) (fr : FRow),
      panel.Pairwise (fun a b => a.code = b.code → a.date < b.date) →
      (computeFactors sqrtf panel)[i]? = some fr →
      ((∀ s : Row, (panel.drop (i + 1)).find? (fun t => t.code == fr.r.code) = some s →
          fr.nextRet = some ((s.close - fr.r.close) / fr.r.close) ∧
          fr.r.date < s.date ∧
          ∀ t ∈ panel, t.code = fr.r.code → fr.r.date < t.date → s.date ≤ t.date) ∧
        ((panel.drop (i + 1)).find? (fun t => t.code == fr.r.code) = none →
          fr.nextRet = none)) := by
  intro sqrtf panel i fr hpw h
  rw [computeFactors, List.getElem?_map, List.getElem?_enum, Option.map_map] at h
  cases hp : panel[i]? with
  | none => rw [hp] at h; simp at h
  | some r =>
    rw [hp] at h
    simp only [Option.map_some', Option.some.injEq] at h
    have hrr : fr.r = r := by rw [← h]; rfl
    have hnr : fr.nextRet =
        overCode (fun v => shiftNeg1 (pctChange v)) (fun s => s.close) panel i := by
      rw [← h]; rfl
    rw [hrr, hnr]
    have hpr : (fun t : Row => t.code == r.code) r = true := by simp
    have hL1 := filter_getElem?_len (fun t : Row => t.code == r.code) panel i r hp hpr
    have hL2 := filter_getElem?_len_succ (fun t : Row => t.code == r.code) panel i r hp hpr
    have hpartk : ((panel.filter (fun t : Row => t.code == r.code)).map
        (fun s : Row => s.close))[
          ((panel.take i).filter (fun t : Row => t.code == r.code)).length]? =
        some r.close := by
      rw [List.getElem?_map, hL1]
      rfl
    obtain ⟨hilen, higet⟩ := List.getElem?_eq_some.mp hp
    constructor
    · intro s hs
      have hcode : s.code = r.code := by
        have hps := List.find?_some hs
        simpa using hps
      have hpartk1 : ((panel.filter (fun t : Row => t.code == r.code)).map
          (fun x : Row => x.close))[
            ((panel.take i).filter (fun t : Row => t.code == r.code)).length + 1]? =
          some s.close := by
        rw [List.getElem?_map, hL2, hs]
        rfl
      have hval : overCode (fun v => shiftNeg1 (pctChange v)) (fun s => s.close) panel i =
          some ((s.close - r.close) / r.close) := by
        simp only [overCode, hp]
        rw [shiftNeg1_pctChange_mid _ _ r.close s.close hpartk hpartk1]
      refine ⟨hval, ?_, ?_⟩
      · obtain ⟨q, hq, -⟩ := find?_index _ _ _ hs
        rw [List.getElem?_drop] at hq
        obtain ⟨hqlen, hqget⟩ := List.getElem?_eq_some.mp hq
        have hR := List.pairwise_iff_getElem.mp hpw i (i + 1 + q) hilen hqlen (by omega)
        rw [higet, hqget] at hR
        exact hR hcode.symm
      · intro t ht htc htd
        obtain ⟨m, hmlen, hmget⟩ := List.mem_iff_getElem.mp ht
        obtain ⟨q, hq, hmin⟩ := find?_index _ _ _ hs
        have hq2 := hq
        rw [List.getElem?_drop] at hq2
        obtain ⟨hqlen, hqget⟩ := List.getElem?_eq_some.mp hq2
        rcases Nat.lt_trichotomy m i with hmi | hmi | hmi
        · have hR := List.pairwise_iff_getElem.mp hpw m i hmlen hilen hmi
          rw [hmget, higet] at hR
          exact absurd (hR htc) (by omega)
        · subst hmi
          have hmt : panel[m]? = some t := List.getElem?_eq_some.mpr ⟨hmlen, hmget⟩
          rw [hp] at hmt
          injection hmt with hmt
          rw [← hmt] at htd
          omega
        · have hdt : (panel.drop (i + 1))[m - (i + 1)]? = some t := by
            rw [List.getElem?_drop]
            have har : i + 1 + (m - (i + 1)) = m := by omega
            rw [har]
            exact List.getElem?_eq_some.mpr ⟨hmlen, hmget⟩
          rcases Nat.lt_trichotomy (m - (i + 1)) q with hlt | heq | hgt
          · have hfalse : (t.code == r.code) = false := hmin (m - (i + 1)) hlt t hdt
            rw [htc] at hfalse
            simp at hfalse
          · rw [heq, hq] at hdt
            injection hdt with hdt
            subst hdt
            exact le_refl _
          · have hmgt : i + 1 + q < m := by omega
            have hR := List.pairwise_iff_getElem.mp hpw (i + 1 + q) m hqlen hmlen hmgt
            rw [hqget, hmget] at hR
            exact le_of_lt (hR (by rw [hcode, htc]))
    · intro hnone
      have hpartk1 : ((panel.filter (fun t : Row => t.code == r.code)).map
          (fun x : Row => x.close))[
            ((panel.take i).filter (fun t : Row => t.code == r.code)).length + 1]? =
          none := by
        rw [List.getElem?_map, hL2, hnone]
        rfl
      have hval : overCode (fun v => shiftNeg1 (pctChange v)) (fun s => s.close) panel i =
          none := by
        simp only [overCode, hp]
        rw [shiftNeg1_pctChange_last _ _ (by rw [hpartk]; simp) hpartk1]
      exact hval

/-- First bar of symbol 1 in the interleaved two-symbol panel. -/
def rowX : Row :=
  { date := 1, code := 1, openp := 10, high := 10, low := 10, close := 10,
    volume := 10, turnover := 1 }

/-- A bar of symbol 2 interleaved between the two bars of symbol 1. -/
def rowZ : Row :=
  { date := 1, code := 2, openp := 100, high := 100, low := 100, close := 100,
    volume := 10, turnover := 1 }

/-- Second bar of symbol 1. -/
def rowY : Row :=
  { date := 2, code := 1, openp := 11, high := 11, low := 11, close := 11,
    volume := 10, turnover := 1 }

/-- Two symbols with interleaved dates, sorted by (code-respecting) date. -/
def panelC7 : List Row := [rowX, rowZ, rowY]

/-- The factor row of rowX: its next_ret steps over the interleaved
symbol-2 bar to rowY, the next bar of symbol 1. -/
def frC7 : FRow :=
  { r := rowX, nextRet := some (1 / 10), factorVolRatio := none, factorVolatility := none }

/-- C7 witness: the characterization applied to row 0 of the interleaved
panel: next_ret uses rowY (same symbol, chronologically next), not the
interleaved rowZ of the other symbol. -/
theorem next_ret_one_step_within_symbol_witness :
    frC7.nextRet = some ((rowY.close - frC7.r.close) / frC7.r.close) ∧
      frC7.r.date < rowY.date ∧
      ∀ t ∈ panelC7, t.code = frC7.r.code → frC7.r.date < t.date → rowY.date ≤ t.date :=
  (next_ret_one_step_within_symbol id panelC7 0 frC7
    (by decide)
    (by
      simp [computeFactors, overCode, panelC7, pctChange, shiftNeg1, rollingMean,
        rollingStd, meanQ, frC7, rowX, rowZ, rowY, List.enum, List.enumFrom]
      norm_num)).1 rowY (by decide)

theorem le3_refl (a : Row) : le3 a a := by
  rcases total_of le3 a a with h | h <;> exact h

theorem le3_trans {a b c : Row} (h1 : le3 a b) (h2 : le3 b c) : le3 a c :=
  Trans.trans h1 h2

/-- Strictly before in the three-column sort order. -/
def lt3 (a b : Row) : Prop := le3 a b ∧ ¬ le3 b a

instance : DecidableRel lt3 := fun a b => by unfold lt3; infer_instance

theorem not_lt3_iff {a b : Row} : ¬ lt3 a b ↔ le3 b a := by
  constructor
  · intro h
    rcases total_of le3 a b with h1 | h1
    · by_contra h2
      exact h ⟨h1, h2⟩
    · exact h1
  · intro h hcon
    exact hcon.2 h

theorem lt3_trans {a b c : Row} (h1 : lt3 a b) (h2 : lt3 b c) : lt3 a c := by
  refine ⟨le3_trans h1.1 h2.1, ?_⟩
  intro hca
  exact h2.2 (le3_trans hca h1.1)

theorem lt3_irrefl (a : Row) : ¬ lt3 a a := fun h => h.2 h.1

/-- The earlier-biased minimum of two rows under the three-column order:
the second argument wins only when strictly smaller. -/
def pickMin (x y : Row) : Row := if lt3 y x then y else x

theorem pickMin_cases (x y : Row) : pickMin x y = x ∨ pickMin x y = y := by
  rw [pickMin]
  split
  · exact Or.inr rfl
  · exact Or.inl rfl

theorem pickMin_le_left (x y : Row) : le3 (pickMin x y) x := by
  rw [pickMin]
  split
  · next h => exact h.1
  · exact le3_refl x

theorem pickMin_le_right (x y : Row) : le3 (pickMin x y) y := by
  rw [pickMin]
  split
  · exact le3_refl y
  · next h => exact not_lt3_iff.mp h

theorem pickMin_assoc (a r s : Row) :
    pickMin a (pickMin r s) = pickMin (pickMin a r) s := by
  by_cases hsr : lt3 s r
  · rw [show pickMin r s = s from if_pos hsr]
    by_cases hra : lt3 r a
    · rw [show pickMin a r = r from if_pos hra]
      rw [show pickMin r s = s from if_pos hsr]
      rw [show pickMin a s = s from if_pos (lt3_trans hsr hra)]
    · rw [show pickMin a r = a from if_neg hra]
  · rw [show pickMin r s = r from if_neg hsr]
    by_cases hra : lt3 r a
    · rw [show pickMin a r = r from if_pos hra]
      rw [show pickMin r s = r from if_neg hsr]
    · rw [show pickMin a r = a from if_neg hra]
      rw [show pickMin a s = a from if_neg ?_]
      rw [not_lt3_iff]
      exact le3_trans (not_lt3_iff.mp hra) (not_lt3_iff.mp hsr)

/-- The earliest row among those satisfying q that is minimal in the
three-column sort order: the row that a stable sort by le3 followed by
keep-first would retain. -/
def firstMin (q : Row → Bool) : List Row → Option Row
  | [] => none
  | a :: l =>
    if q a then
      match firstMin q l with
      | some r => some (pickMin a r)
      | none => some a
    else firstMin q l

theorem firstMin_none (q : Row → Bool) :
    ∀ l : List Row, firstMin q l = none → ∀ s ∈ l, q s = false := by
  intro l
  induction l with
  | nil => intro _ s hs; simp at hs
  | cons a t ih =>
    intro h s hs
    rw [firstMin] at h
    by_cases ha : q a = true
    · rw [if_pos ha] at h
      cases hf : firstMin q t <;> rw [hf] at h <;> simp at h
    · rw [if_neg ha] at h
      rcases List.mem_cons.mp hs with rfl | hst
      · simpa using ha
      · exact ih h s hst

theorem firstMin_of_no_match (q : Row → Bool) :
    ∀ l : List Row, (∀ s ∈ l, q s = false) → firstMin q l = none := by
  intro l
  induction l with
  | nil => intro _; rfl
  | cons a t ih =>
    intro h
    rw [firstMin]
    rw [if_neg (by rw [h a (List.mem_cons_self a t)]; simp)]
    exact ih (fun s hs => h s (List.mem_cons_of_mem a hs))

theorem firstMin_mem (q : Row → Bool) :
    ∀ (l : List Row) (r : Row), firstMin q l = some r → r ∈ l ∧ q r = true := by
  intro l
  induction l with
  | nil => intro r h; simp [firstMin] at h
  | cons a t ih =>
    intro r h
    rw [firstMin] at h
    by_cases ha : q a = true
    · rw [if_pos ha] at h
      cases hf : firstMin q t with
      | none =>
        rw [hf] at h
        injection h with h
        subst h
        exact ⟨List.mem_cons_self a t, ha⟩
      | some r0 =>
        rw [hf] at h
        injection h with h
        obtain ⟨hmem, hq⟩ := ih r0 hf
        rcases pickMin_cases a r0 with hpick | hpick <;> rw [hpick] at h <;> subst h
        · exact ⟨List.mem_cons_self a t, ha⟩
        · exact ⟨List.mem_cons_of_mem a hmem, hq⟩
    · rw [if_neg ha] at h
      obtain ⟨hmem, hq⟩ := ih r h
      exact ⟨List.mem_cons_of_mem a hmem, hq⟩

theorem firstMin_min (q : Row → Bool) :
    ∀ (l : List Row) (r : Row), firstMin q l = some r →
      ∀ s ∈ l, q s = true → le3 r s := by
  intro l
  induction l with
  | nil => intro r h; simp [firstMin] at h
  | cons a t ih =>
    intro r h s hs hqs
    rw [firstMin] at h
    by_cases ha : q a = true
    · rw [if_pos ha] at h
      cases hf : firstMin q t with
      | none =>
        rw [hf] at h
        injection h with h
        subst h
        rcases List.mem_cons.mp hs with rfl | hst
        · exact le3_refl _
        · exact absurd hqs (by rw [firstMin_none q t hf s hst]; simp)
      | some r0 =>
        rw [hf] at h
        injection h with h
        subst h
        rcases List.mem_cons.mp hs with rfl | hst
        · exact pickMin_le_left _ _
        · exact le3_trans (pickMin_le_right a r0) (ih r0 hf s hst hqs)
    · rw [if_neg ha] at h
      rcases List.mem_cons.mp hs with rfl | hst
      · exact absurd hqs (by simpa using ha)
      · exact ih r h s hst hqs

theorem firstMin_unique (q : Row → Bool) :
    ∀ (l : List Row) (r : Row), r ∈ l → q r = true →
      (∀ s ∈ l, q s = true → s = r) → firstMin q l = some r := by
  intro l
  induction l with
  | nil => intro r hr; simp at hr
  | cons a t ih =>
    intro r hr hq huniq
    rw [firstMin]
    by_cases ha : q a = true
    · have har : a = r := huniq a (List.mem_cons_self a t) ha
      subst har
      rw [if_pos ha]
      cases hf : firstMin q t with
      | none => rfl
      | some r0 =>
        obtain ⟨hmem, hq0⟩ := firstMin_mem q t r0 hf
        have hra : r0 = a := huniq r0 (List.mem_cons_of_mem a hmem) hq0
        subst hra
        show some (pickMin r0 r0) = some r0
        rw [show pickMin r0 r0 = r0 from if_neg (lt3_irrefl r0)]
    · rw [if_neg ha]
      have hrt : r ∈ t := by
        rcases List.mem_cons.mp hr with rfl | hrt
        · exact absurd hq (by simpa using ha)
        · exact hrt
      exact ih r hrt hq (fun s hs hqs => huniq s (List.mem_cons_of_mem a hs) hqs)

theorem firstMin_append (q : Row → Bool) :
    ∀ m b : List Row,
      firstMin q (m ++ b) =
        match firstMin q m, firstMin q b with
        | none, x => x
        | some r, none => some r
        | some r, some s => some (pickMin r s) := by
  intro m b
  induction m with
  | nil =>
    rw [List.nil_append]
    show firstMin q b = _
    cases firstMin q b <;> rfl
  | cons a t ih =>
    rw [List.cons_append]
    rw [firstMin]
    conv_rhs => rw [firstMin]
    by_cases ha : q a = true
    · rw [if_pos ha, if_pos ha, ih]
      cases hm : firstMin q t <;> cases hb : firstMin q b
      · rfl
      · rfl
      · rfl
      · show some (pickMin a (pickMin _ _)) = some (pickMin (pickMin a _) _)
        rw [pickMin_assoc]
    · rw [if_neg ha, if_neg ha, ih]

theorem orderedInsert_find? (q : Row → Bool) (a : Row) :
    ∀ m : List Row, List.Sorted le3 m →
      (List.orderedInsert le3 a m).find? q =
        if q a then
          match m.find? q with
          | some r => some (pickMin a r)
          | none => some a
        else m.find? q := by
  intro m
  induction m with
  | nil =>
    intro _
    show List.find? q [a] = _
    by_cases ha : q a = true
    · rw [if_pos ha, List.find?_cons_of_pos _ ha]
      rfl
    · rw [if_neg ha, List.find?_cons_of_neg _ (by simpa using ha)]
  | cons b t ih =>
    intro hs
    rw [List.orderedInsert]
    by_cases hab : le3 a b
    · rw [if_pos hab]
      by_cases ha : q a = true
      · rw [List.find?_cons_of_pos _ ha, if_pos ha]
        cases hf : List.find? q (b :: t) with
        | none => rfl
        | some r =>
          have hrmem : r ∈ b :: t := List.mem_of_find?_eq_some hf
          have hbr : le3 b r := by
            rcases List.mem_cons.mp hrmem with rfl | hrt
            · exact le3_refl _
            · exact List.rel_of_sorted_cons hs r hrt
          have har : le3 a r := le3_trans hab hbr
          show some a = some (pickMin a r)
          rw [show pickMin a r = a from if_neg (by rw [not_lt3_iff]; exact har)]
      · rw [List.find?_cons_of_neg _ (by simpa using ha), if_neg ha]
    · rw [if_neg hab]
      have hba : le3 b a := by
        rcases total_of le3 a b with h | h
        · exact absurd h hab
        · exact h
      by_cases hb : q b = true
      · rw [List.find?_cons_of_pos _ hb, List.find?_cons_of_pos _ hb]
        by_cases ha : q a = true
        · rw [if_pos ha]
          show some b = some (pickMin a b)
          rw [show pickMin a b = b from if_pos ⟨hba, hab⟩]
        · rw [if_neg ha]
      · rw [List.find?_cons_of_neg _ (by simpa using hb),
          List.find?_cons_of_neg _ (by simpa using hb)]
        exact ih (List.Sorted.of_cons hs)

theorem sort3_find? (q : Row → Bool) :
    ∀ l : List Row, (sort3 l).find? q = firstMin q l := by
  intro l
  induction l with
  | nil => rfl
  | cons a t ih =>
    show (List.orderedInsert le3 a (List.insertionSort le3 t)).find? q = _
    rw [orderedInsert_find? q a (List.insertionSort le3 t) (List.sorted_insertionSort le3 t)]
    rw [show (List.insertionSort le3 t).find? q = firstMin q t from ih]
    rw [firstMin]

theorem uniqueFirstAux_mem :
    ∀ (m : List Row) (seen : List (Nat × Nat)) (r : Row),
      r ∈ uniqueFirstAux seen m ↔
        rkey r ∉ seen ∧ m.find? (fun s => rkey s == rkey r) = some r := by
  intro m
  induction m with
  | nil =>
    intro seen r
    simp [uniqueFirstAux]
  | cons a l ih =>
    intro seen r
    rw [uniqueFirstAux]
    by_cases ha : rkey a ∈ seen
    · rw [if_pos ha, ih]
      by_cases hq : (rkey a == rkey r) = true
      · have hkar : rkey a = rkey r := by simpa using hq
        rw [List.find?_cons_of_pos l (show (fun s : Row => rkey s == rkey r) a = true from hq)]
        constructor
        · rintro ⟨hnot, -⟩
          exact absurd (hkar ▸ ha) hnot
        · rintro ⟨hnot, -⟩
          exact absurd (hkar ▸ ha) hnot
      · rw [List.find?_cons_of_neg l (show ¬ (fun s : Row => rkey s == rkey r) a = true from by simpa using hq)]
    · rw [if_neg ha, List.mem_cons, ih]
      by_cases hq : (rkey a == rkey r) = true
      · have hkar : rkey a = rkey r := by simpa using hq
        rw [List.find?_cons_of_pos l (show (fun s : Row => rkey s == rkey r) a = true from hq)]
        constructor
        · rintro (rfl | ⟨hnotin, -⟩)
          · exact ⟨fun hin => ha hin, rfl⟩
          · exact absurd (by rw [← hkar]; exact List.mem_cons_self _ _) hnotin
        · rintro ⟨hnot, hfind⟩
          injection hfind with hfind
          exact Or.inl hfind.symm
      · have hkar : rkey a ≠ rkey r := by simpa using hq
        rw [List.find?_cons_of_neg l (show ¬ (fun s : Row => rkey s == rkey r) a = true from by simpa using hq)]
        constructor
        · rintro (rfl | ⟨hnotin, hfind⟩)
          · exact absurd rfl hkar
          · exact ⟨fun hin => hnotin (List.mem_cons_of_mem _ hin), hfind⟩
        · rintro ⟨hnot, hfind⟩
          refine Or.inr ⟨?_, hfind⟩
          intro hin
          rcases List.mem_cons.mp hin with heq | hin2
          · exact hkar heq.symm
          · exact hnot hin2

theorem merge_mem_iff (P B : List Row) (r : Row) :
    r ∈ mergeIncremental P B ↔
      firstMin (fun s => rkey s == rkey r) (P ++ B) = some r := by
  rw [mergeIncremental, sortcd]
  rw [List.mem_insertionSort]
  rw [uniqueFirst, uniqueFirstAux_mem]
  rw [sort3_find?]
  simp only [List.not_mem_nil, not_false_iff, true_and]

theorem uniqueFirstAux_pairwise :
    ∀ (m : List Row) (seen : List (Nat × Nat)),
      (uniqueFirstAux seen m).Pairwise (fun a b => rkey a ≠ rkey b) := by
  intro m
  induction m with
  | nil => intro seen; exact List.Pairwise.nil
  | cons a l ih =>
    intro seen
    rw [uniqueFirstAux]
    by_cases ha : rkey a ∈ seen
    · rw [if_pos ha]
      exact ih seen
    · rw [if_neg ha]
      refine List.Pairwise.cons ?_ (ih (rkey a :: seen))
      intro b hb
      have := (uniqueFirstAux_mem l (rkey a :: seen) b).mp hb
      intro heq
      exact this.1 (by rw [← heq]; exact List.mem_cons_self _ _)

/-- The strict (code, date) key order on rows. -/
def rowKeyLt (a b : Row) : Prop := keyLt (rkey a) (rkey b)

instance : IsAntisymm Row rowKeyLt :=
  ⟨fun a b h1 h2 => absurd h2 (keyLt_asymm h1)⟩

/-- No two distinct rows of the list agree on all three sort keys of the
merge (code, date, close).  This is exactly the condition under which the
tie order of the polars sort — left unspecified under the default
maintain_order = false — cannot influence which row the keep-first dedup
retains. -/
def NoKeyCloseTies (l : List Row) : Prop :=
  ∀ a ∈ l, ∀ b ∈ l, rkey a = rkey b → a.close = b.close → a = b

instance (l : List Row) : Decidable (NoKeyCloseTies l) := by
  unfold NoKeyCloseTies; infer_instance

/-- out is a possible result of the incremental merge of batch B into
panel P under some tie order of the engine: for some list s that sorts
P ++ B by (code asc, date asc, close desc) — any permutation achieving
that order is allowed, since polars does not promise a stable sort — out
is, in some output order, the keep-first (code, date) dedup of s,
re-sorted by (code, date).  mergeIncremental computes one such result
(the stable realization). -/
def IsMergeResult (P B out : List Row) : Prop :=
  ∃ s : List Row, List.Perm s (P ++ B) ∧ List.Sorted le3 s ∧
    List.Perm out (uniqueFirst s) ∧ List.Sorted lecd out

theorem mergeIncremental_isMergeResult (P B : List Row) :
    IsMergeResult P B (mergeIncremental P B) :=
  ⟨sort3 (P ++ B), List.perm_insertionSort le3 (P ++ B),
    List.sorted_insertionSort le3 (P ++ B),
    List.perm_insertionSort lecd (uniqueFirst (sort3 (P ++ B))),
    List.sorted_insertionSort lecd (uniqueFirst (sort3 (P ++ B)))⟩

theorem sorted_perm_find?_eq_firstMin (k : Nat × Nat) (l s : List Row)
    (hperm : List.Perm s l) (hsort : List.Sorted le3 s)
    (hnt : NoKeyCloseTies l) :
    s.find? (fun t => rkey t == k) = firstMin (fun t => rkey t == k) l := by
  cases hfm : firstMin (fun t => rkey t == k) l with
  | none =>
    have hnone := firstMin_none _ _ hfm
    apply List.find?_eq_none.mpr
    intro x hx
    have hfx := hnone x ((List.Perm.mem_iff hperm).mp hx)
    intro hcon
    rw [hfx] at hcon
    exact Bool.false_ne_true hcon
  | some m =>
    obtain ⟨hm_mem, hm_q⟩ := firstMin_mem _ _ _ hfm
    have hms : m ∈ s := (List.Perm.mem_iff hperm).mpr hm_mem
    cases hft : s.find? (fun t => rkey t == k) with
    | none =>
      exact absurd hm_q (by simpa using List.find?_eq_none.mp hft m hms)
    | some t =>
      obtain ⟨q0, hq0get, hq0min⟩ := find?_index _ _ _ hft
      have htq := List.find?_some hft
      have ht_mem_l : t ∈ l := (List.Perm.mem_iff hperm).mp (List.mem_of_find?_eq_some hft)
      have hmt : le3 m t := firstMin_min _ _ _ hfm t ht_mem_l htq
      obtain ⟨pm, hpmlen, hpmget⟩ := List.mem_iff_getElem.mp hms
      obtain ⟨hq0len, hq0getE⟩ := List.getElem?_eq_some.mp hq0get
      have htm : le3 t m := by
        rcases Nat.lt_trichotomy pm q0 with hlt | heq | hgt
        · have hfalse := hq0min pm hlt m (List.getElem?_eq_some.mpr ⟨hpmlen, hpmget⟩)
          rw [hm_q] at hfalse
          exact absurd hfalse (by simp)
        · subst heq
          have h2 : s[pm]? = some m := List.getElem?_eq_some.mpr ⟨hpmlen, hpmget⟩
          rw [hq0get] at h2
          injection h2 with h2
          rw [h2]
          exact le3_refl m
        · have hR := List.pairwise_iff_getElem.mp hsort q0 pm hq0len hpmlen hgt
          rw [hq0getE, hpmget] at hR
          exact hR
      have hkey : rkey t = rkey m := by
        have h1 : rkey t = k := by simpa using htq
        have h2 : rkey m = k := by simpa using hm_q
        rw [h1, h2]
      have hclose : t.close = m.close := by
        rcases htm with hlt | ⟨-, hcl1⟩
        · rw [hkey] at hlt
          exact absurd hlt (keyLt_irrefl _)
        · rcases hmt with hlt2 | ⟨-, hcl2⟩
          · rw [hkey] at hlt2
            exact absurd hlt2 (keyLt_irrefl _)
          · exact le_antisymm hcl2 hcl1
      exact congrArg some (hnt t ht_mem_l m hm_mem hkey hclose)

theorem mergeResult_mem_iff {P B out : List Row} (hnt : NoKeyCloseTies (P ++ B))
    (hm : IsMergeResult P B out) (r : Row) :
    r ∈ out ↔ firstMin (fun t => rkey t == rkey r) (P ++ B) = some r := by
  obtain ⟨s, hpermS, hsortS, hpermOut, -⟩ := hm
  rw [List.Perm.mem_iff hpermOut]
  rw [uniqueFirst, uniqueFirstAux_mem]
  rw [sorted_perm_find?_eq_firstMin (rkey r) (P ++ B) s hpermS hsortS hnt]
  simp only [List.not_mem_nil, not_false_iff, true_and]

theorem mergeResult_pairwise_ne {P B out : List Row} (hm : IsMergeResult P B out) :
    out.Pairwise (fun a b => rkey a ≠ rkey b) := by
  obtain ⟨s, -, -, hpermOut, -⟩ := hm
  exact (List.Perm.pairwise_iff (fun h he => h he.symm) hpermOut).mpr
    (uniqueFirstAux_pairwise s [])

theorem mergeResult_strict_sorted {P B out : List Row} (hm : IsMergeResult P B out) :
    out.Pairwise rowKeyLt := by
  have h2 := mergeResult_pairwise_ne hm
  obtain ⟨s, -, -, -, hsortOut⟩ := hm
  have h1 : out.Pairwise lecd := hsortOut
  exact (h1.and h2).imp (fun hab => by
    rcases hab.1 with hlt | heq
    · exact hlt
    · exact absurd heq hab.2)

theorem mergeResult_nodup {P B out : List Row} (hm : IsMergeResult P B out) :
    out.Nodup :=
  (mergeResult_pairwise_ne hm).imp (fun hne => fun he => hne (by rw [he]))

theorem firstMin_mergeResult_append {P B M1 : List Row} (hnt : NoKeyCloseTies (P ++ B))
    (h1 : IsMergeResult P B M1) (k : Nat × Nat) :
    firstMin (fun s => rkey s == k) (M1 ++ B) =
      firstMin (fun s => rkey s == k) (P ++ B) := by
  cases hfm : firstMin (fun s => rkey s == k) (P ++ B) with
  | none =>
    apply firstMin_of_no_match
    intro s hs
    rcases List.mem_append.mp hs with hsM | hsB
    · by_contra hcon
      rw [Bool.not_eq_false] at hcon
      have hks : rkey s = k := by simpa using hcon
      rw [mergeResult_mem_iff hnt h1 s, hks, hfm] at hsM
      exact absurd hsM (by simp)
    · exact firstMin_none _ _ hfm s (List.mem_append_right P hsB)
  | some r1 =>
    obtain ⟨hr1mem, hr1q⟩ := firstMin_mem _ _ _ hfm
    have hk : rkey r1 = k := by simpa using hr1q
    have hr1M : r1 ∈ M1 := by
      rw [mergeResult_mem_iff hnt h1 r1, hk]
      exact hfm
    have huniq : ∀ s ∈ M1, (rkey s == k) = true → s = r1 := by
      intro s hs hq
      have hks : rkey s = k := by simpa using hq
      rw [mergeResult_mem_iff hnt h1 s, hks, hfm] at hs
      injection hs with hs
      exact hs.symm
    have hfmM : firstMin (fun s => rkey s == k) M1 = some r1 :=
      firstMin_unique _ _ r1 hr1M (by simp [hk]) huniq
    rw [firstMin_append, hfmM]
    cases hfb : firstMin (fun s => rkey s == k) B with
    | none => rfl
    | some s =>
      obtain ⟨hsmem, hsq⟩ := firstMin_mem _ _ _ hfb
      have hle : le3 r1 s := firstMin_min _ _ r1 hfm s (List.mem_append_right P hsmem) hsq
      show some (pickMin r1 s) = some r1
      rw [show pickMin r1 s = r1 from if_neg (fun hcon => hcon.2 hle)]

/-- C8: whenever no two distinct rows of the combined panel-plus-batch
agree on all of code, date and close — the condition under which the
tie order of the polars sort, unspecified under its default
maintain_order = false, cannot affect which row the keep-first dedup
retains — the incremental merge is idempotent for every tie order the
engine may choose: any merge result M1 of batch B into panel P is
reproduced exactly (rows and order) by any second merge of the same
batch into M1, the (code, date) dedup keeping exactly one row per key. -/
theorem mergeIncremental_idempotent_no_ties :
    ∀ P B M1 M2 : List Row, NoKeyCloseTies (P ++ B) →
      IsMergeResult P B M1 → IsMergeResult M1 B M2 → M2 = M1 := by
  intro P B M1 M2 hnt h1 h2
  have hsub : ∀ x ∈ M1 ++ B, x ∈ P ++ B := by
    intro x hx
    rcases List.mem_append.mp hx with hxM | hxB
    · exact (firstMin_mem _ _ _ ((mergeResult_mem_iff hnt h1 x).mp hxM)).1
    · exact List.mem_append_right P hxB
  have hnt2 : NoKeyCloseTies (M1 ++ B) :=
    fun a ha b hb => hnt a (hsub a ha) b (hsub b hb)
  have hmem : ∀ r : Row, r ∈ M2 ↔ r ∈ M1 := by
    intro r
    rw [mergeResult_mem_iff hnt2 h2 r, mergeResult_mem_iff hnt h1 r,
      firstMin_mergeResult_append hnt h1 (rkey r)]
  have hperm : List.Perm M2 M1 :=
    (List.perm_ext_iff_of_nodup (mergeResult_nodup h2) (mergeResult_nodup h1)).mpr hmem
  exact List.eq_of_perm_of_sorted hperm (mergeResult_strict_sorted h2)
    (mergeResult_strict_sorted h1)

/-- C8 witness: both merges computed by mergeIncremental (the stable
realization of IsMergeResult) on the tie-free one-row panel and batch. -/
theorem mergeIncremental_idempotent_no_ties_witness :
    mergeIncremental (mergeIncremental [oldBar] [newBar]) [newBar] =
      mergeIncremental [oldBar] [newBar] :=
  mergeIncremental_idempotent_no_ties [oldBar] [newBar] _ _ (by decide)
    (mergeIncremental_isMergeResult _ _) (mergeIncremental_isMergeResult _ _)

/-- The quantile(q) aggregation with the polars default interpolation
"nearest": the sorted cohort value at index round(q * (n - 1)). -/
def quantileNearest (q : ℚ) (v : List ℚ) : Option ℚ :=
  (List.insertionSort (fun a b : ℚ => a ≤ b) v)[
    (Int.toNat ⌊q * (((List.insertionSort (fun a b : ℚ => a ≤ b) v).length : ℚ) - 1) + 1 / 2⌋)]?

/-- The winsorize building block defined inside process_cross_section:
clip a value into the per-date [q01, q99] band of its column.  The
function is defined in the source but never applied to any column. -/
def winsorizeVal (rows : List FRow) (d : Nat) (col : FRow → Option ℚ) (x : ℚ) : ℚ :=
  match quantileNearest (1 / 100) (cohortVals rows d col),
      quantileNearest (99 / 100) (cohortVals rows d col) with
  | some lo, some hi => min (max x lo) hi
  | _, _ => x


/-- A 52-value turnover column for one date: large enough that the 1st
and 99th nearest-interpolation percentiles clip both tails. -/
def winsorVals : List ℚ := List.map (fun n : Nat => (n : ℚ)) (List.range 52)

/-- A date-1 cohort row with the given turnover. -/
def mkWRow (x : ℚ) : FRow :=
  { r := { date := 1, code := 0, openp := 0, high := 0, low := 0, close := 1,
           volume := 1, turnover := x },
    nextRet := none, factorVolRatio := some 1, factorVolatility := none }

/-- A 52-row single-date cohort whose turnovers are winsorVals. -/
def winsorRows : List FRow := winsorVals.map mkWRow

theorem winsorVals_sorted : List.Sorted (fun a b : ℚ => a ≤ b) winsorVals :=
  List.Pairwise.map (fun n : Nat => (n : ℚ))
    (fun a b hab => by show ((a : ℚ) ≤ (b : ℚ)); exact_mod_cast Nat.le_of_lt hab)
    (List.sorted_lt_range 52)

theorem cohortVals_winsorRows :
    cohortVals winsorRows 1 (fun s => some s.r.turnover) = winsorVals := by
  rw [cohortVals, winsorRows, List.filter_map, List.map_map]
  have hfil : List.filter ((fun s : FRow => s.r.date == 1) ∘ mkWRow) winsorVals =
      winsorVals := List.filter_eq_self.mpr (fun a _ => rfl)
  rw [hfil]
  show List.filterMap ((fun s : FRow => some s.r.turnover) ∘ mkWRow) winsorVals = winsorVals
  rw [show ((fun s : FRow => some s.r.turnover) ∘ mkWRow) = (fun x : ℚ => some x) from rfl]
  simp

/-- C10: the cross-section stage never winsorizes: the standardized
fields and the score of every output row are computed by standardizeVal
over the raw factor columns (z_vol_ratio from factor_vol_ratio as stored,
z_turnover from the raw turnover, score their half-half mix), while the
winsorize building block of the module, applied to the same raw turnover
column, is not the identity: on a 52-row cohort it moves the smallest raw
value 0 up to the first percentile 1 — so unclipped extremes do enter
the mean and std. -/
theorem cross_section_unwinsorized :
    (∀ (sqrtf : ℚ → ℚ) (rows : List FRow) (i : Nat) (sr : SRow),
        (processCrossSection sqrtf rows)[i]? = some sr →
        sr.zVolRatio = standardizeVal sqrtf rows sr.fr.r.date
            (fun s => s.factorVolRatio) sr.fr.factorVolRatio ∧
        sr.zTurnover = standardizeVal sqrtf rows sr.fr.r.date
            (fun s => some s.r.turnover) (some sr.fr.r.turnover) ∧
        sr.score = (match sr.zVolRatio, sr.zTurnover with
          | some a, some b => some (a * (1 / 2) + b * (1 / 2))
          | _, _ => none)) ∧
      (winsorRows.map (fun fr => fr.r.turnover))[0]? = some 0 ∧
      winsorizeVal winsorRows 1 (fun s => some s.r.turnover) 0 = 1 := by
  refine ⟨?_, ?_, ?_⟩
  · intro sqrtf rows i sr h
    rw [processCrossSection, List.getElem?_map] at h
    cases hp : rows[i]? with
    | none => rw [hp] at h; simp at h
    | some fr =>
      rw [hp] at h
      simp only [Option.map_some', Option.some.injEq] at h
      have hfr : sr.fr = fr := by rw [← h]
      have hzv : sr.zVolRatio =
          standardizeVal sqrtf rows fr.r.date (fun s => s.factorVolRatio) fr.factorVolRatio := by
        rw [← h]
      have hzt : sr.zTurnover =
          standardizeVal sqrtf rows fr.r.date (fun s => some s.r.turnover)
            (some fr.r.turnover) := by
        rw [← h]
      refine ⟨by rw [hfr, hzv], by rw [hfr, hzt], ?_⟩
      rw [hzv, hzt, ← h]
  · rw [winsorRows, List.map_map]
    rw [winsorVals, List.map_map]
    rw [List.getElem?_map, List.getElem?_range (by norm_num)]
    rfl
  · rw [winsorizeVal, cohortVals_winsorRows]
    have hsort : List.insertionSort (fun a b : ℚ => a ≤ b) winsorVals = winsorVals :=
      List.Sorted.insertionSort_eq winsorVals_sorted
    have hlen : (winsorVals.length : ℚ) = 52 := by
      rw [winsorVals, List.length_map, List.length_range]
      norm_num
    have hq1 : quantileNearest (1 / 100) winsorVals = some 1 := by
      rw [quantileNearest, hsort, hlen]
      have hidx : Int.toNat ⌊(1 / 100 : ℚ) * ((52 : ℚ) - 1) + 1 / 2⌋ = 1 := by norm_num
      rw [hidx]
      rw [winsorVals, List.getElem?_map, List.getElem?_range (by norm_num)]
      norm_num
    have hq99 : quantileNearest (99 / 100) winsorVals = some 50 := by
      rw [quantileNearest, hsort, hlen]
      have hidx : Int.toNat ⌊(99 / 100 : ℚ) * ((52 : ℚ) - 1) + 1 / 2⌋ = 50 := by
        have hfl : (⌊(99 / 100 : ℚ) * ((52 : ℚ) - 1) + 1 / 2⌋ : ℤ) = 50 := by norm_num
        rw [hfl]
        rfl
      rw [hidx]
      rw [winsorVals, List.getElem?_map, List.getElem?_range (by norm_num)]
      norm_num
    rw [hq1, hq99]
    norm_num

/-- The scored row of frC7 processed alone (singleton cohort). -/
def srW : SRow := { fr := frC7, zVolRatio := none, zTurnover := none, score := none }

/-- C10 witness: the raw-column characterization applied to the
single-row frame of frC7. -/
theorem cross_section_unwinsorized_witness :
    srW.zVolRatio = standardizeVal id [frC7] srW.fr.r.date
        (fun s => s.factorVolRatio) srW.fr.factorVolRatio ∧
      srW.zTurnover = standardizeVal id [frC7] srW.fr.r.date
        (fun s => some s.r.turnover) (some srW.fr.r.turnover) ∧
      srW.score = (match srW.zVolRatio, srW.zTurnover with
        | some a, some b => some (a * (1 / 2) + b * (1 / 2))
        | _, _ => none) :=
  cross_section_unwinsorized.1 id [frC7] 0 srW (by
    simp [processCrossSection, standardizeVal, stdDdof1, cohortVals, srW, frC7, rowX])
